import Mathlib

/-!
Verification of the space-saver client-side batch-compression workflow.

The development shallowly embeds the TypeScript sources:
* `src/app/src/lib/utils/path.ts` (normalizePath, isSubpath, validatePath, ...),
* `src/app/src/lib/components/PathSelector.svelte` (handlePathAdded),
* `src/app/src/routes/compress/+page.svelte` (goToConfirm and the
  bounded-concurrency worker pool inside handleCompress).

JavaScript strings are modelled as lists of characters; the cooperative
concurrency of the `async` worker tasks is modelled by a small-step relation
whose atomic steps are exactly the synchronous segments between `await`
suspension points of the worker loop.
-/

namespace SpaceSaver

/-- A JavaScript string, modelled as its list of characters. -/
abbrev JSStr := List Char

/-! ## Path utilities (src/app/src/lib/utils/path.ts) -/

/-- Line 10 of normalizePath: `path.replace(/\\/g, '/')` — convert every
backslash to a forward slash. -/
def replaceBackslashes (s : JSStr) : JSStr :=
  s.map (fun c => if c = '\\' then '/' else c)

/-- JavaScript `toLowerCase()`, restricted to the basic-latin case mapping. -/
def jsToLower (s : JSStr) : JSStr :=
  s.map Char.toLower

/-- Lines 12-14 of normalizePath: `if (normalized.length > 1 &&
normalized.endsWith('/')) normalized = normalized.slice(0, -1)` — remove
one trailing slash unless the string has length ≤ 1. -/
def stripTrailingSlash (s : JSStr) : JSStr :=
  if 1 < s.length ∧ s.getLast? = some '/' then s.dropLast else s

/-- `normalizePath` from path.ts lines 8-17: convert backslashes to forward
slashes, remove a trailing slash unless the string has length ≤ 1, and
lower-case the result. -/
def normalizePath (path : JSStr) : JSStr :=
  jsToLower (stripTrailingSlash (replaceBackslashes path))

/-- `isSubpath` from path.ts lines 25-36: `path` is a strict sub-path of
`parentPath` when their normalized forms differ and the normalized path
starts with the normalized parent followed by a separator. -/
def isSubpath (path parentPath : JSStr) : Bool :=
  let normalizedPath := normalizePath path
  let normalizedParent := normalizePath parentPath
  if normalizedPath == normalizedParent then false
  else List.isPrefixOf (normalizedParent ++ ['/']) normalizedPath

/-- `isParentPath` from path.ts lines 44-46. -/
def isParentPath (path childPath : JSStr) : Bool :=
  isSubpath childPath path

/-- `findParentPaths` from path.ts lines 54-56: existing paths containing
the new path. -/
def findParentPaths (newPath : JSStr) (existingPaths : List JSStr) : List JSStr :=
  existingPaths.filter (fun existing => isSubpath newPath existing)

/-- `findChildPaths` from path.ts lines 64-66: existing paths contained in
the new path. -/
def findChildPaths (newPath : JSStr) (existingPaths : List JSStr) : List JSStr :=
  existingPaths.filter (fun existing => isSubpath existing newPath)

/-- JavaScript `array.join(', ')`. -/
def joinCommaSep (l : List JSStr) : JSStr :=
  List.intercalate (", ".toList) l

/-- `PathValidationResult` from path.ts lines 71-77. -/
structure PathValidationResult where
  isValid : Bool
  isDuplicate : Bool
  isSubpathOf : List JSStr
  hasSubpaths : List JSStr
  warnings : List JSStr
deriving DecidableEq

/-- `validatePath` from path.ts lines 79-110. -/
def validatePath (path : JSStr) (existingPaths : List JSStr) : PathValidationResult :=
  let normalizedPath := normalizePath path
  let isDuplicate := existingPaths.any (fun existing => normalizePath existing == normalizedPath)
  let warnings : List JSStr :=
    if isDuplicate then ["This path is already in the list".toList] else []
  let isSubpathOf := findParentPaths path existingPaths
  let warnings := warnings ++
    (if 0 < isSubpathOf.length then
      ["This path is already covered by: ".toList ++ joinCommaSep isSubpathOf] else [])
  let hasSubpaths := findChildPaths path existingPaths
  let warnings := warnings ++
    (if 0 < hasSubpaths.length then
      ["This path would make redundant: ".toList ++ joinCommaSep hasSubpaths] else [])
  let isValid := !isDuplicate && isSubpathOf.length == 0
  { isValid := isValid, isDuplicate := isDuplicate, isSubpathOf := isSubpathOf,
    hasSubpaths := hasSubpaths, warnings := warnings }

/-! ## Scan-root selection (src/app/src/lib/components/PathSelector.svelte) -/

/-- The state touched by `handlePathAdded`: the shared scan-root list
(`$appState.scanPaths`) and the component-local list of rejected paths with
their validation results. -/
structure SelectorState where
  scanPaths : List JSStr
  invalidPaths : List (JSStr × PathValidationResult)
deriving DecidableEq

/-- `handlePathAdded` from PathSelector.svelte lines 27-51.  A candidate is
accepted when `validation.isValid` holds (the second disjunct of the source
condition also forces validity); acceptance filters out every existing root
listed in `validation.hasSubpaths` and appends the candidate.  Rejected or
subsumed paths are recorded in `invalidPaths` (deduplicated by path). -/
def handlePathAdded (path : JSStr) (s : SelectorState) : SelectorState :=
  let validation := validatePath path s.scanPaths
  if validation.isValid ||
      (decide (0 < validation.hasSubpaths.length) && !validation.isDuplicate &&
        validation.isSubpathOf.length == 0) then
    let newPaths := s.scanPaths.filter (fun p => !(validation.hasSubpaths.contains p)) ++ [path]
    let newInvalid := validation.hasSubpaths.foldl
      (fun acc subpath =>
        if acc.any (fun ip => ip.1 == subpath) then acc
        else acc ++ [(subpath, validatePath subpath newPaths)])
      s.invalidPaths
    { scanPaths := newPaths, invalidPaths := newInvalid }
  else
    if s.invalidPaths.any (fun ip => ip.1 == path) then s
    else { s with invalidPaths := s.invalidPaths ++ [(path, validation)] }

/-- Folding a sequence of user path additions over `handlePathAdded`. -/
def addAll (ps : List JSStr) (s : SelectorState) : SelectorState :=
  ps.foldl (fun st q => handlePathAdded q st) s

/-- The PathSet invariant: no two scan roots are equal after normalization
and no root is a strict normalized sub-path of another. -/
def pathSetOk (roots : List JSStr) : Prop :=
  roots.Pairwise (fun a b =>
    normalizePath a ≠ normalizePath b ∧ isSubpath a b = false ∧ isSubpath b a = false)

/-! ## Step workflow (src/app/src/routes/compress/+page.svelte) -/

/-- `CompressibleFile` from src/app/src/lib/api/index.ts. -/
structure CompressibleFile where
  path : JSStr
  original_size : Nat
  estimated_compressed_size : Nat
  estimated_savings : Nat
  plugin_name : JSStr
deriving DecidableEq

/-- The three workflow steps (`type Step = 'scan' | 'confirm' | 'process'`). -/
inductive Step
  | scan
  | confirm
  | process
deriving DecidableEq

/-- The page state touched by `goToConfirm`: the current step, the scanned
compressible files, the user selection, and the shared error banner. -/
structure PageState where
  currentStep : Step
  compressibleFiles : List CompressibleFile
  selectedFiles : List JSStr
  error : Option JSStr
deriving DecidableEq

/-- `goToConfirm` from +page.svelte lines 188-194: the transition is gated
on the scan having produced at least one compressible file. -/
def goToConfirm (s : PageState) : PageState :=
  if s.compressibleFiles.length = 0 then
    { s with error := some ("Please scan for files first".toList) }
  else
    { s with currentStep := Step.confirm }

/-! ## The worker pool (handleCompress, +page.svelte lines 127-186) -/

/-- The work for one run: the snapshot `Array.from(selectedFiles)`, the
active plugin ordering, and the configured pool size. -/
structure BatchPlan where
  paths : List JSStr
  pluginOrder : List JSStr
  poolSize : Nat

/-- `InPlaceCompressionResult` from src/app/src/lib/api/index.ts. -/
structure InPlaceCompressionResult where
  success : Bool
  path : JSStr
  backup_path : Option JSStr := none
  original_size : Option Nat := none
  compressed_size : Option Nat := none
  savings : Option Nat := none
  plugin_name : Option JSStr := none
  error : Option JSStr := none
deriving DecidableEq

/-- A JavaScript value thrown by a rejected `compressFilesInPlace` call:
either an `Error` object carrying a message, or any non-`Error` value. -/
inductive JSValue
  | errorObj (message : JSStr)
  | nonError
deriving DecidableEq

/-- The catch block of the worker loop (lines 159-165):
`err instanceof Error ? err.message : "Unknown error"`. -/
def caughtMessage : JSValue → JSStr
  | .errorObj message => message
  | .nonError => "Unknown error".toList

/-- The outcome of one external `compressFilesInPlace([filePath], plugins)`
call: it resolves with the single result for the requested path, or rejects
with a thrown value. -/
inductive CallOutcome
  | ok (r : InPlaceCompressionResult)
  | thrown (e : JSValue)

/-- A behaviour of the external per-file compress operation. -/
abbrev CompressBehaviour := JSStr → CallOutcome

/-- The failure result the catch block appends for path `p`
(lines 161-165 of +page.svelte). -/
def failureResult (p : JSStr) (e : JSValue) : InPlaceCompressionResult :=
  { success := false, path := p, error := some (caughtMessage e) }

/-- The single result the worker records for path `p`: the engine's result
when the call resolves, the constructed failure result when it rejects. -/
def resultFor (beh : CompressBehaviour) (p : JSStr) : InPlaceCompressionResult :=
  match beh p with
  | .ok r => r
  | .thrown e => failureResult p e

/-- The external-engine contract of §6 of the specification: a resolved
`compressOne(path, ...)` call yields the result ''for that path''. -/
def EngineContract (beh : CompressBehaviour) : Prop :=
  ∀ p r, beh p = CallOutcome.ok r → r.path = p

/-- The control position of one worker task.  `ready` is the loop head
(about to test `fileIndex < filesToCompress.length` and claim), `compressing
i` is suspended in `await compressFilesInPlace` for claimed index `i`,
`sleeping` is suspended in the artificial `await setTimeout(10)` delay, and
`done` means the worker task returned. -/
inductive WStatus
  | ready
  | compressing (i : Nat)
  | sleeping
  | done
deriving DecidableEq

/-- True when the worker is parked at an `await` suspension point. -/
def WStatus.isSuspended : WStatus → Bool
  | .compressing _ => true
  | .sleeping => true
  | _ => false

/-- True when the worker is suspended in the `compressFilesInPlace` call. -/
def WStatus.isCompressCall : WStatus → Bool
  | .compressing _ => true
  | _ => false

/-- The shared state of one run of `handleCompress`, together with the
control positions of the spawned workers and a ghost log of (worker, index)
claim events (the instrumentation §8 of the specification asks for). -/
structure PoolState where
  fileIndex : Nat
  currentlyProcessing : List JSStr
  compressionResults : List InPlaceCompressionResult
  processedCount : Nat
  workers : List WStatus
  claims : List (Nat × Nat)
deriving DecidableEq

/-- The state right after lines 136-146 and the spawn loop of lines 175-177:
counters reset and exactly `poolSize` workers started at the loop head. -/
def initState (plan : BatchPlan) : PoolState :=
  { fileIndex := 0
    currentlyProcessing := []
    compressionResults := []
    processedCount := 0
    workers := List.replicate plan.poolSize WStatus.ready
    claims := [] }

/-- The state after worker `w` claims `currentIndex = fileIndex++` (lines
149-154): the cursor advances, the claimed path joins
`currentlyProcessing`, the worker suspends in the compress call, and the
ghost claim log records the event. -/
def claimResult (plan : BatchPlan) (s : PoolState) (w : Nat) : PoolState :=
  { fileIndex := s.fileIndex + 1
    currentlyProcessing := s.currentlyProcessing ++ [plan.paths.getD s.fileIndex []]
    compressionResults := s.compressionResults
    processedCount := s.processedCount
    workers := s.workers.set w (WStatus.compressing s.fileIndex)
    claims := s.claims ++ [(w, s.fileIndex)] }

/-- The state after worker `w`'s awaited compress call for index `i`
settles (lines 156-171): the (caught) result is appended, the path is
filtered out of `currentlyProcessing`, `processedCount` is incremented and
the worker enters the `setTimeout` delay — one synchronous segment. -/
def finishResult (plan : BatchPlan) (beh : CompressBehaviour) (s : PoolState)
    (w i : Nat) : PoolState :=
  { fileIndex := s.fileIndex
    currentlyProcessing :=
      s.currentlyProcessing.filter (fun q => q != plan.paths.getD i [])
    compressionResults := s.compressionResults ++ [resultFor beh (plan.paths.getD i [])]
    processedCount := s.processedCount + 1
    workers := s.workers.set w WStatus.sleeping
    claims := s.claims }

/-- The state after worker `w`'s delay fires (line 171), returning control
to the loop head. -/
def wakeResult (s : PoolState) (w : Nat) : PoolState :=
  { s with workers := s.workers.set w WStatus.ready }

/-- The state after worker `w` finds no index left (line 149 test fails)
and returns. -/
def exitResult (s : PoolState) (w : Nat) : PoolState :=
  { s with workers := s.workers.set w WStatus.done }

/-- One atomic step of the cooperatively scheduled worker tasks.  Each step
is one synchronous segment of the worker loop (lines 148-173): the segments
between the `await` suspension points. -/
inductive WorkerStep (plan : BatchPlan) (beh : CompressBehaviour) : PoolState → PoolState → Prop
  | claim (s : PoolState) (w : Nat)
      (hw : s.workers[w]? = some WStatus.ready)
      (hlt : s.fileIndex < plan.paths.length) :
      WorkerStep plan beh s (claimResult plan s w)
  | finish (s : PoolState) (w i : Nat)
      (hw : s.workers[w]? = some (WStatus.compressing i)) :
      WorkerStep plan beh s (finishResult plan beh s w i)
  | wake (s : PoolState) (w : Nat)
      (hw : s.workers[w]? = some WStatus.sleeping) :
      WorkerStep plan beh s (wakeResult s w)
  | exit (s : PoolState) (w : Nat)
      (hw : s.workers[w]? = some WStatus.ready)
      (hge : plan.paths.length ≤ s.fileIndex) :
      WorkerStep plan beh s (exitResult s w)

/-- The states one run of `handleCompress` can pass through, under any
interleaving of its workers. -/
def Reachable (plan : BatchPlan) (beh : CompressBehaviour) (s : PoolState) : Prop :=
  Relation.ReflTransGen (WorkerStep plan beh) (initState plan) s

/-- The claimed index a worker status holds, if any. -/
def statusIdx : WStatus → Option Nat
  | WStatus.compressing i => some i
  | _ => none

/-- The indices currently claimed by suspended compress calls (the in-flight
set, by index). -/
def inflightIdx (s : PoolState) : List Nat :=
  s.workers.filterMap statusIdx

/-- Control-flow invariants of a run, independent of the compress
behaviour: worker count, cursor bound, the claim log being exactly
`0, 1, ..., fileIndex - 1` in order, in-flight indices being distinct
already-claimed indices, `processedCount` matching the result list, and a
finished worker witnessing an exhausted cursor. -/
structure InvA (plan : BatchPlan) (s : PoolState) : Prop where
  wlen : s.workers.length = plan.poolSize
  cursor_le : s.fileIndex ≤ plan.paths.length
  claims_eq : s.claims.map (fun c => c.2) = List.range s.fileIndex
  inflight_lt : ∀ i ∈ inflightIdx s, i < s.fileIndex
  inflight_nodup : (inflightIdx s).Nodup
  count_eq : s.processedCount = s.compressionResults.length
  done_imp : (∃ st ∈ s.workers, st = WStatus.done) → plan.paths.length ≤ s.fileIndex

/-- Data invariants of a run: finished results plus in-flight paths are a
permutation of the claimed prefix of the plan, `currentlyProcessing` is a
permutation of the in-flight paths, and every recorded result is the one
the behaviour dictates for its path. -/
structure InvB (plan : BatchPlan) (beh : CompressBehaviour) (s : PoolState) : Prop where
  results_perm :
    (s.compressionResults.map (fun r => r.path) ++
      (inflightIdx s).map (fun i => plan.paths.getD i [])).Perm
      (plan.paths.take s.fileIndex)
  processing_perm :
    s.currentlyProcessing.Perm ((inflightIdx s).map (fun i => plan.paths.getD i []))
  results_spec : ∀ r ∈ s.compressionResults, ∃ p ∈ plan.paths, r = resultFor beh p

/-! ## Concrete plans, behaviours and runs used as witnesses -/

/-- A one-path plan with a single worker. -/
def planSingle : BatchPlan :=
  { paths := ["a".toList], pluginOrder := [], poolSize := 1 }

/-- A three-path plan with a pool of five workers. -/
def planFiveThree : BatchPlan :=
  { paths := ["a".toList, "b".toList, "c".toList], pluginOrder := [], poolSize := 5 }

/-- A behaviour whose every call resolves successfully for the requested
path. -/
def behOk : CompressBehaviour :=
  fun p => CallOutcome.ok { success := true, path := p }

/-- A behaviour whose every call rejects with an `Error` carrying an empty
message. -/
def behEmptyError : CompressBehaviour :=
  fun _ => CallOutcome.thrown (JSValue.errorObj [])

/-- The successful result for path `a`. -/
def okResultA : InPlaceCompressionResult :=
  { success := true, path := "a".toList }

/-- The failure result recorded after a rejection with an empty-message
`Error`: its `error` field is the empty string. -/
def emptyErrResultA : InPlaceCompressionResult :=
  { success := false, path := "a".toList, error := some [] }

/-- The state of the `planSingle`/`behOk` run after claim and completion of
index 0, with the worker parked in the `setTimeout` delay. -/
def sSleepOk : PoolState :=
  { fileIndex := 1, currentlyProcessing := [], compressionResults := [okResultA],
    processedCount := 1, workers := [WStatus.sleeping], claims := [(0, 0)] }

/-- The completed state of the `planSingle`/`behOk` run. -/
def sDoneOk : PoolState :=
  { fileIndex := 1, currentlyProcessing := [], compressionResults := [okResultA],
    processedCount := 1, workers := [WStatus.done], claims := [(0, 0)] }

/-- The completed state of the `planSingle`/`behEmptyError` run. -/
def sDoneErr : PoolState :=
  { fileIndex := 1, currentlyProcessing := [], compressionResults := [emptyErrResultA],
    processedCount := 1, workers := [WStatus.done], claims := [(0, 0)] }

/-- The state of the `planSingle`/`behEmptyError` run with the worker in
the `setTimeout` delay after recording the failure. -/
def sSleepErr : PoolState :=
  { fileIndex := 1, currentlyProcessing := [], compressionResults := [emptyErrResultA],
    processedCount := 1, workers := [WStatus.sleeping], claims := [(0, 0)] }

/-- A string whose separator-unified form ends in two consecutive
separators; `normalizePath` strips only one of them, so a second
application strips again. -/
def noDoubleTrailingSep (p : JSStr) : Prop :=
  ¬((replaceBackslashes p).getLast? = some '/' ∧
    (replaceBackslashes p).dropLast.getLast? = some '/')

/-- A sample scanned file (the web-mode mock scan result of
src/app/src/lib/api/index.ts). -/
def sampleFile : CompressibleFile :=
  { path := "/path/to/image.png".toList, original_size := 1024000,
    estimated_compressed_size := 716800, estimated_savings := 307200,
    plugin_name := "WebP Converter".toList }

/-- A page state after a scan found one file but the user deselected all
files. -/
def pageNoSelection : PageState :=
  { currentStep := Step.scan, compressibleFiles := [sampleFile], selectedFiles := [],
    error := none }

/-- A page state after a scan found one file, with it selected. -/
def pageWithSelection : PageState :=
  { currentStep := Step.scan, compressibleFiles := [sampleFile],
    selectedFiles := ["/path/to/image.png".toList], error := none }

/-! ## Character-level helper lemmas -/

lemma toNat_ofNat_valid {n : Nat} (h : n.isValidChar) : (Char.ofNat n).toNat = n := by
  simp [Char.ofNat, dif_pos h, Char.ofNatAux, Char.toNat, UInt32.toNat, BitVec.toNat_ofNatLt]

lemma toLower_toLower (c : Char) : c.toLower.toLower = c.toLower := by
  unfold Char.toLower
  by_cases h : c.toNat ≥ 65 ∧ c.toNat ≤ 90
  · rw [if_pos h]
    have hv : (c.toNat + 32).isValidChar := Or.inl (by omega)
    rw [toNat_ofNat_valid hv, if_neg (by omega)]
  · rw [if_neg h, if_neg h]

lemma toLower_eq_low {c t : Char} (ht : t.toNat < 97) (h : c.toLower = t) : c = t := by
  unfold Char.toLower at h
  by_cases hin : c.toNat ≥ 65 ∧ c.toNat ≤ 90
  · rw [if_pos hin] at h
    have hnat : (Char.ofNat (c.toNat + 32)).toNat = t.toNat := by rw [h]
    rw [toNat_ofNat_valid (Or.inl (by omega))] at hnat
    omega
  · rwa [if_neg hin] at h

lemma replaceBackslashes_no_backslash (p : JSStr) : ∀ c ∈ replaceBackslashes p, c ≠ '\\' := by
  intro c hc
  obtain ⟨d, _, hd⟩ := List.mem_map.mp hc
  by_cases hdb : d = '\\'
  · rw [if_pos hdb] at hd
    rw [← hd]
    decide
  · rw [if_neg hdb] at hd
    rw [← hd]
    exact hdb

lemma replaceBackslashes_eq_self {s : JSStr} (h : ∀ c ∈ s, c ≠ '\\') :
    replaceBackslashes s = s := by
  unfold replaceBackslashes
  have hcong : ∀ c ∈ s, (if c = '\\' then '/' else c) = c := fun c hc => if_neg (h c hc)
  rw [List.map_congr_left hcong, List.map_id']

lemma stripTrailingSlash_subset {s : JSStr} : ∀ c ∈ stripTrailingSlash s, c ∈ s := by
  intro c hc
  unfold stripTrailingSlash at hc
  by_cases hcond : 1 < s.length ∧ s.getLast? = some '/'
  · rw [if_pos hcond] at hc
    exact List.dropLast_subset s hc
  · rwa [if_neg hcond] at hc

/-! ## C9 and C10: behaviour of normalizePath -/

/-- C9 (code_bug evidence): the repository's own test
(path.test.ts line 23) and the specification expect the drive root `C:\`
to keep its trailing separator, normalizing to `c:/`; the code only
excepts strings of length ≤ 1, so it strips the separator and returns
`c:`.  The plain root `/` does keep its separator. -/
theorem normalizePath_drive_root_divergence :
    normalizePath "C:\\".toList = "c:".toList ∧
    normalizePath "C:\\".toList ≠ "c:/".toList ∧
    normalizePath "/".toList = "/".toList := by
  decide

/-- C10 (counterexample): `normalizePath` is not idempotent — on `a//` one
application strips a single trailing slash, leaving `a/`, and a second
application strips again. -/
theorem normalizePath_not_idempotent :
    normalizePath (normalizePath "a//".toList) ≠ normalizePath "a//".toList := by
  decide

/-- C10 (amended): `normalizePath` is idempotent on every string whose
separator-unified form does not end in two consecutive separators. -/
theorem normalizePath_idem (p : JSStr) (h : noDoubleTrailingSep p) :
    normalizePath (normalizePath p) = normalizePath p := by
  unfold noDoubleTrailingSep at h
  unfold normalizePath
  have hnb : ∀ c ∈ jsToLower (stripTrailingSlash (replaceBackslashes p)), c ≠ '\\' := by
    intro c hc
    obtain ⟨d, hd, hdl⟩ := List.mem_map.mp hc
    intro hcb
    have hd' : d = '\\' := toLower_eq_low (by decide) (hcb ▸ hdl)
    exact replaceBackslashes_no_backslash p d
      (stripTrailingSlash_subset d hd) hd'
  rw [replaceBackslashes_eq_self hnb]
  have h2 : stripTrailingSlash (jsToLower (stripTrailingSlash (replaceBackslashes p)))
      = jsToLower (stripTrailingSlash (replaceBackslashes p)) := by
    unfold stripTrailingSlash
    rw [if_neg]
    rintro ⟨hlen, hlast⟩
    rw [jsToLower, List.getLast?_map] at hlast
    obtain ⟨d, hd, hdl⟩ := Option.map_eq_some'.mp hlast
    have hd' : d = '/' := toLower_eq_low (by decide) hdl
    subst hd'
    rw [jsToLower, List.length_map] at hlen
    by_cases hcond : 1 < (replaceBackslashes p).length ∧
        (replaceBackslashes p).getLast? = some '/'
    · rw [if_pos hcond] at hd
      exact h ⟨hcond.2, hd⟩
    · rw [if_neg hcond] at hd hlen
      exact hcond ⟨hlen, hd⟩
  rw [h2]
  unfold jsToLower
  rw [List.map_map]
  exact List.map_congr_left (fun c _ => toLower_toLower c)

/-- C10 (witness): a concrete instantiation of the amended idempotence
theorem at `/Home/User/`. -/
theorem normalizePath_idem_witness :
    noDoubleTrailingSep "/Home/User/".toList ∧
      normalizePath (normalizePath "/Home/User/".toList) =
        normalizePath "/Home/User/".toList :=
  ⟨by unfold noDoubleTrailingSep; decide,
    normalizePath_idem ("/Home/User/".toList) (by unfold noDoubleTrailingSep; decide)⟩

/-! ## C7: the Scan → Confirm transition -/

/-- C7 (counterexample): with one scanned compressible file but an empty
selection, `goToConfirm` still moves the workflow to Confirm, so the
transition is not gated on the selection as the claim states. -/
theorem goToConfirm_empty_selection_cex :
    pageNoSelection.selectedFiles = [] ∧
    (goToConfirm pageNoSelection).currentStep = Step.confirm := by
  constructor
  · rfl
  · decide

/-- C7 (amended): the Scan → Confirm transition succeeds exactly when the
scan produced at least one CompressibleFile, regardless of the selection;
with no scanned files it is rejected with the user-facing error message and
every other component of the page state is left unchanged. -/
theorem goToConfirm_amended (s : PageState) :
    (s.compressibleFiles ≠ [] → goToConfirm s = { s with currentStep := Step.confirm }) ∧
    (s.compressibleFiles = [] →
      (goToConfirm s).currentStep = s.currentStep ∧
      (goToConfirm s).error = some ("Please scan for files first".toList) ∧
      (goToConfirm s).compressibleFiles = s.compressibleFiles ∧
      (goToConfirm s).selectedFiles = s.selectedFiles) := by
  constructor
  · intro hne
    unfold goToConfirm
    rw [if_neg (by simpa using hne)]
  · intro he
    unfold goToConfirm
    rw [if_pos (by simp [he])]
    exact ⟨rfl, rfl, rfl, rfl⟩

/-- C7 (witness): with one scanned file (and, here, a nonempty selection)
the transition succeeds. -/
theorem goToConfirm_amended_witness :
    goToConfirm pageWithSelection = { pageWithSelection with currentStep := Step.confirm } :=
  (goToConfirm_amended pageWithSelection).1 (by decide)

/-! ## C8: the PathSet invariant -/

lemma validatePath_isDuplicate_eq (path : JSStr) (roots : List JSStr) :
    (validatePath path roots).isDuplicate =
      roots.any (fun existing => normalizePath existing == normalizePath path) := rfl

lemma validatePath_isSubpathOf_eq (path : JSStr) (roots : List JSStr) :
    (validatePath path roots).isSubpathOf = findParentPaths path roots := rfl

lemma validatePath_hasSubpaths_eq (path : JSStr) (roots : List JSStr) :
    (validatePath path roots).hasSubpaths = findChildPaths path roots := rfl

lemma validatePath_isValid_eq (path : JSStr) (roots : List JSStr) :
    (validatePath path roots).isValid =
      (!(validatePath path roots).isDuplicate &&
        (validatePath path roots).isSubpathOf.length == 0) := rfl

lemma isSubpath_true_ne {q p : JSStr} (h : isSubpath q p = true) :
    normalizePath q ≠ normalizePath p := by
  unfold isSubpath at h
  by_cases hbe : (normalizePath q == normalizePath p) = true
  · rw [if_pos hbe] at h
    exact absurd h (by simp)
  · intro he
    exact hbe (by simp [he])

/-- If the acceptance condition of `handlePathAdded` holds then the
candidate is neither a duplicate nor a sub-path of an existing root. -/
lemma handleCond_valid {path : JSStr} {roots : List JSStr}
    (h : ((validatePath path roots).isValid ||
      (decide (0 < (validatePath path roots).hasSubpaths.length) &&
        !(validatePath path roots).isDuplicate &&
        (validatePath path roots).isSubpathOf.length == 0)) = true) :
    (validatePath path roots).isDuplicate = false ∧
      (validatePath path roots).isSubpathOf = [] := by
  rcases Bool.or_eq_true_iff.mp h with h1 | h2
  · rw [validatePath_isValid_eq] at h1
    rcases Bool.and_eq_true_iff.mp h1 with ⟨hd, hl⟩
    refine ⟨by simpa using hd, ?_⟩
    exact List.length_eq_zero.mp (by simpa using hl)
  · rcases Bool.and_eq_true_iff.mp h2 with ⟨h3, hl⟩
    rcases Bool.and_eq_true_iff.mp h3 with ⟨_, hd⟩
    refine ⟨by simpa using hd, ?_⟩
    exact List.length_eq_zero.mp (by simpa using hl)

/-- The two possible effects of `handlePathAdded` on the scan-root list:
either unchanged, or (for an accepted candidate) children filtered out and
the candidate appended. -/
lemma handlePathAdded_scanPaths_cases (path : JSStr) (s : SelectorState) :
    (handlePathAdded path s).scanPaths = s.scanPaths ∨
    ((validatePath path s.scanPaths).isDuplicate = false ∧
      (validatePath path s.scanPaths).isSubpathOf = [] ∧
      (handlePathAdded path s).scanPaths =
        s.scanPaths.filter
          (fun p => !((validatePath path s.scanPaths).hasSubpaths.contains p)) ++ [path]) := by
  unfold handlePathAdded
  by_cases hcond : ((validatePath path s.scanPaths).isValid ||
      (decide (0 < (validatePath path s.scanPaths).hasSubpaths.length) &&
        !(validatePath path s.scanPaths).isDuplicate &&
        (validatePath path s.scanPaths).isSubpathOf.length == 0)) = true
  · right
    obtain ⟨hd, hsub⟩ := handleCond_valid hcond
    refine ⟨hd, hsub, ?_⟩
    rw [if_pos hcond]
  · left
    rw [if_neg hcond]
    by_cases hinv : (s.invalidPaths.any (fun ip => ip.1 == path)) = true
    · rw [if_pos hinv]
    · rw [if_neg hinv]

/-- One accepted or rejected addition preserves the PathSet invariant. -/
lemma pathSetOk_step {s : SelectorState} (h : pathSetOk s.scanPaths) (path : JSStr) :
    pathSetOk (handlePathAdded path s).scanPaths := by
  rcases handlePathAdded_scanPaths_cases path s with heq | ⟨hdup, hsub, heq⟩
  · rwa [heq]
  · rw [heq]
    rw [pathSetOk, List.pairwise_append]
    refine ⟨h.filter _, by simp, ?_⟩
    intro a ha b hb
    rw [List.mem_singleton] at hb
    subst hb
    obtain ⟨hamem, hkeep⟩ := List.mem_filter.mp ha
    have hnotin : a ∉ (validatePath b s.scanPaths).hasSubpaths := by
      intro hx
      simp only [Bool.not_eq_true'] at hkeep
      rw [List.contains_eq_any_beq] at hkeep
      have hany : (validatePath b s.scanPaths).hasSubpaths.any (a == ·) = true :=
        List.any_eq_true.mpr ⟨a, hx, by simp⟩
      rw [hany] at hkeep
      simp at hkeep
    have hnotchild : isSubpath a b = false := by
      by_contra hx
      rw [Bool.not_eq_false] at hx
      exact hnotin (by
        rw [validatePath_hasSubpaths_eq]
        exact List.mem_filter.mpr ⟨hamem, by simpa using hx⟩)
    have hdup2 : normalizePath a ≠ normalizePath b := by
      rw [validatePath_isDuplicate_eq] at hdup
      have h0 := List.any_eq_false.mp hdup a hamem
      simpa using h0
    have hparent : isSubpath b a = false := by
      rw [validatePath_isSubpathOf_eq] at hsub
      unfold findParentPaths at hsub
      have h1 := List.filter_eq_nil_iff.mp hsub a hamem
      simpa using h1
    exact ⟨hdup2, hnotchild, hparent⟩

/-- C8: starting from any scan-root set satisfying the PathSet invariant,
every sequence of `handlePathAdded` calls preserves it (no two roots
normalized-equal, none a strict normalized sub-path of another), and an
accepted (valid) candidate is appended while every existing root strictly
contained in it is removed. -/
theorem handlePathAdded_invariant (s : SelectorState) (h : pathSetOk s.scanPaths)
    (ps : List JSStr) :
    pathSetOk ((addAll ps s).scanPaths) ∧
    (∀ p, (validatePath p s.scanPaths).isValid = true →
      p ∈ (handlePathAdded p s).scanPaths ∧
      ∀ q ∈ s.scanPaths, isSubpath q p = true → q ∉ (handlePathAdded p s).scanPaths) := by
  constructor
  · induction ps generalizing s with
    | nil => exact h
    | cons p ps ih =>
      rw [addAll, List.foldl_cons]
      exact ih _ (pathSetOk_step h p)
  · intro p hvalid
    have hcond : ((validatePath p s.scanPaths).isValid ||
        (decide (0 < (validatePath p s.scanPaths).hasSubpaths.length) &&
          !(validatePath p s.scanPaths).isDuplicate &&
          (validatePath p s.scanPaths).isSubpathOf.length == 0)) = true :=
      Bool.or_eq_true_iff.mpr (Or.inl hvalid)
    have heq : (handlePathAdded p s).scanPaths =
        s.scanPaths.filter
          (fun x => !((validatePath p s.scanPaths).hasSubpaths.contains x)) ++ [p] := by
      unfold handlePathAdded
      rw [if_pos hcond]
    constructor
    · rw [heq]
      exact List.mem_append_right _ (List.mem_singleton.mpr rfl)
    · intro q hq hsubq
      rw [heq]
      intro hmem
      rcases List.mem_append.mp hmem with hq1 | hq2
      · obtain ⟨_, hkeep⟩ := List.mem_filter.mp hq1
        simp only [Bool.not_eq_true'] at hkeep
        rw [List.contains_eq_any_beq] at hkeep
        have hin : q ∈ (validatePath p s.scanPaths).hasSubpaths := by
          rw [validatePath_hasSubpaths_eq]
          exact List.mem_filter.mpr ⟨hq, by simpa using hsubq⟩
        have : (validatePath p s.scanPaths).hasSubpaths.any (q == ·) = true :=
          List.any_eq_true.mpr ⟨q, hin, by simp⟩
        rw [this] at hkeep
        exact Bool.true_eq_false.mp hkeep
      · rw [List.mem_singleton] at hq2
        subst hq2
        exact isSubpath_true_ne hsubq rfl

/-- C8 (witness): adding `/a/b` to the empty root set. -/
theorem handlePathAdded_invariant_witness :
    pathSetOk ((addAll ["/a/b".toList] { scanPaths := [], invalidPaths := [] }).scanPaths) ∧
    (∀ p, (validatePath p ({ scanPaths := [], invalidPaths := [] } : SelectorState).scanPaths).isValid = true →
      p ∈ (handlePathAdded p { scanPaths := [], invalidPaths := [] }).scanPaths ∧
      ∀ q ∈ ({ scanPaths := [], invalidPaths := [] } : SelectorState).scanPaths,
        isSubpath q p = true →
        q ∉ (handlePathAdded p { scanPaths := [], invalidPaths := [] }).scanPaths) :=
  handlePathAdded_invariant { scanPaths := [], invalidPaths := [] }
    List.Pairwise.nil ["/a/b".toList]

/-! ## Worker-pool invariant machinery -/

/-- Replacing one list entry changes a `filterMap` only by trading the old
entry's contribution for the new one's, up to permutation. -/
lemma filterMap_set_perm {α β : Type} (f : α → Option β) (l : List α) (w : Nat) (a b : α)
    (h : l[w]? = some a) :
    ((l.set w b).filterMap f ++ (f a).toList).Perm (l.filterMap f ++ (f b).toList) := by
  induction l generalizing w with
  | nil => simp at h
  | cons c t ih =>
    cases w with
    | zero =>
      obtain rfl : c = a := by simpa using h
      rw [List.set_cons_zero]
      cases hfb : f b with
      | none =>
        cases hfc : f c with
        | none => simp [List.filterMap_cons, hfb, hfc]
        | some x => simp [List.filterMap_cons, hfb, hfc]
      | some y =>
        cases hfc : f c with
        | none =>
          simpa [List.filterMap_cons, hfb, hfc] using
            (List.perm_append_singleton y (t.filterMap f)).symm
        | some x =>
          simp only [List.filterMap_cons, hfb, hfc, List.cons_append, Option.toList_some]
          have h1 : (t.filterMap f ++ [x]).Perm (x :: t.filterMap f) :=
            List.perm_append_singleton x (t.filterMap f)
          have h2 : (t.filterMap f ++ [y]).Perm (y :: t.filterMap f) :=
            List.perm_append_singleton y (t.filterMap f)
          exact (h1.cons y).trans ((List.Perm.swap x y (t.filterMap f)).trans (h2.cons x).symm)
    | succ w =>
      rw [List.getElem?_cons_succ] at h
      rw [List.set_cons_succ]
      cases hfc : f c with
      | none => simpa [List.filterMap_cons, hfc] using ih w h
      | some y => simpa [List.filterMap_cons, hfc] using (ih w h).cons y

lemma inflight_set_claim {l : List WStatus} {w : Nat} (h : l[w]? = some WStatus.ready)
    (k : Nat) :
    ((l.set w (WStatus.compressing k)).filterMap statusIdx).Perm
      (l.filterMap statusIdx ++ [k]) := by
  simpa [statusIdx] using
    filterMap_set_perm statusIdx l w WStatus.ready (WStatus.compressing k) h

lemma inflight_set_finish {l : List WStatus} {w i : Nat}
    (h : l[w]? = some (WStatus.compressing i)) :
    ((l.set w WStatus.sleeping).filterMap statusIdx ++ [i]).Perm (l.filterMap statusIdx) := by
  simpa [statusIdx] using
    filterMap_set_perm statusIdx l w (WStatus.compressing i) WStatus.sleeping h

lemma inflight_set_none {l : List WStatus} {w : Nat} {a b : WStatus}
    (ha : l[w]? = some a) (hsa : statusIdx a = none) (hsb : statusIdx b = none) :
    ((l.set w b).filterMap statusIdx).Perm (l.filterMap statusIdx) := by
  simpa [hsa, hsb] using filterMap_set_perm statusIdx l w a b ha

lemma invA_init (plan : BatchPlan) : InvA plan (initState plan) := by
  refine ⟨?_, ?_, ?_, ?_, ?_, ?_, ?_⟩
  · simp [initState]
  · exact Nat.zero_le _
  · simp [initState]
  · intro i hi
    simp [inflightIdx, initState, statusIdx] at hi
  · simp [inflightIdx, initState, statusIdx]
  · rfl
  · rintro ⟨st, hmem, hdone⟩
    have hready := List.eq_of_mem_replicate hmem
    rw [hdone] at hready
    exact absurd hready (by simp)

lemma invA_step {plan : BatchPlan} {beh : CompressBehaviour} {s s' : PoolState}
    (hstep : WorkerStep plan beh s s') (ha : InvA plan s) : InvA plan s' := by
  obtain ⟨wlen, cle, ceq, ilt, ind, cnt, dimp⟩ := ha
  cases hstep with
  | claim w hw hlt =>
    have hperm : (inflightIdx (claimResult plan s w)).Perm (inflightIdx s ++ [s.fileIndex]) :=
      inflight_set_claim hw s.fileIndex
    refine ⟨?_, ?_, ?_, ?_, ?_, ?_, ?_⟩
    · simpa [claimResult] using wlen
    · simp only [claimResult]
      omega
    · simp [claimResult, ceq, List.range_succ]
    · intro i hi
      rcases List.mem_append.mp (hperm.mem_iff.mp hi) with h1 | h1
      · have := ilt i h1
        simp [claimResult]
        omega
      · rw [List.mem_singleton] at h1
        simp [claimResult, h1]
    · refine hperm.symm.nodup ?_
      rw [List.nodup_append]
      refine ⟨ind, List.nodup_singleton _, ?_⟩
      intro i hi hmem
      rw [List.mem_singleton] at hmem
      subst hmem
      exact absurd (ilt _ hi) (by omega)
    · simpa [claimResult] using cnt
    · rintro ⟨st, hmem, hdone⟩
      rcases List.mem_or_eq_of_mem_set hmem with h1 | h1
      · have := dimp ⟨st, h1, hdone⟩
        simp [claimResult]
        omega
      · rw [hdone] at h1
        exact absurd h1 (by simp)
  | finish w i hw =>
    have hperm : (inflightIdx (finishResult plan beh s w i) ++ [i]).Perm (inflightIdx s) :=
      inflight_set_finish hw
    have hsub : ∀ j ∈ inflightIdx (finishResult plan beh s w i), j ∈ inflightIdx s := by
      intro j hj
      exact hperm.mem_iff.mp (List.mem_append_left _ hj)
    refine ⟨?_, ?_, ?_, ?_, ?_, ?_, ?_⟩
    · simpa [finishResult] using wlen
    · exact cle
    · simpa [finishResult] using ceq
    · intro j hj
      simpa [finishResult] using ilt j (hsub j hj)
    · exact (hperm.symm.nodup ind).of_append_left
    · simp [finishResult, cnt]
    · rintro ⟨st, hmem, hdone⟩
      rcases List.mem_or_eq_of_mem_set hmem with h1 | h1
      · simpa [finishResult] using dimp ⟨st, h1, hdone⟩
      · rw [hdone] at h1
        exact absurd h1 (by simp)
  | wake w hw =>
    have hperm : (inflightIdx (wakeResult s w)).Perm (inflightIdx s) :=
      inflight_set_none hw rfl rfl
    refine ⟨?_, ?_, ?_, ?_, ?_, ?_, ?_⟩
    · simpa [wakeResult] using wlen
    · exact cle
    · exact ceq
    · intro j hj
      simpa [wakeResult] using ilt j (hperm.mem_iff.mp hj)
    · exact hperm.symm.nodup ind
    · exact cnt
    · rintro ⟨st, hmem, hdone⟩
      rcases List.mem_or_eq_of_mem_set hmem with h1 | h1
      · simpa [wakeResult] using dimp ⟨st, h1, hdone⟩
      · rw [hdone] at h1
        exact absurd h1 (by simp)
  | exit w hw hge =>
    have hperm : (inflightIdx (exitResult s w)).Perm (inflightIdx s) :=
      inflight_set_none hw rfl rfl
    refine ⟨?_, ?_, ?_, ?_, ?_, ?_, ?_⟩
    · simpa [exitResult] using wlen
    · exact cle
    · exact ceq
    · intro j hj
      simpa [exitResult] using ilt j (hperm.mem_iff.mp hj)
    · exact hperm.symm.nodup ind
    · exact cnt
    · intro _
      exact hge

lemma invA_reachable {plan : BatchPlan} {beh : CompressBehaviour} {s : PoolState}
    (h : Reachable plan beh s) : InvA plan s := by
  induction h with
  | refl => exact invA_init plan
  | tail hr hstep ih => exact invA_step hstep ih

/-- Under the engine contract, the recorded result of a call is always for
the requested path (a rejected call's failure result carries it by
construction). -/
lemma resultFor_path {beh : CompressBehaviour} (hc : EngineContract beh) (p : JSStr) :
    (resultFor beh p).path = p := by
  unfold resultFor
  cases hbeh : beh p with
  | ok r => exact hc p r hbeh
  | thrown e => rfl

lemma invB_init (plan : BatchPlan) (beh : CompressBehaviour) :
    InvB plan beh (initState plan) := by
  refine ⟨?_, ?_, ?_⟩
  · simp [initState, inflightIdx, statusIdx]
  · simp [initState, inflightIdx, statusIdx]
  · intro r hr
    simp [initState] at hr

lemma invB_step {plan : BatchPlan} {beh : CompressBehaviour} {s s' : PoolState}
    (hnd : plan.paths.Nodup) (hc : EngineContract beh)
    (hstep : WorkerStep plan beh s s') (ha : InvA plan s) (hb : InvB plan beh s) :
    InvB plan beh s' := by
  obtain ⟨rperm, pperm, rspec⟩ := hb
  cases hstep with
  | claim w hw hlt =>
    have hperm : (inflightIdx (claimResult plan s w)).Perm (inflightIdx s ++ [s.fileIndex]) :=
      inflight_set_claim hw s.fileIndex
    have hmap : ((inflightIdx (claimResult plan s w)).map
        (fun i => plan.paths.getD i [])).Perm
        ((inflightIdx s).map (fun i => plan.paths.getD i []) ++
          [plan.paths.getD s.fileIndex []]) := by
      simpa using hperm.map (fun i => plan.paths.getD i [])
    refine ⟨?_, ?_, ?_⟩
    · have e1 : (s.compressionResults.map (fun r => r.path) ++
          (inflightIdx (claimResult plan s w)).map (fun i => plan.paths.getD i [])).Perm
          ((s.compressionResults.map (fun r => r.path) ++
            (inflightIdx s).map (fun i => plan.paths.getD i [])) ++
            [plan.paths.getD s.fileIndex []]) := by
        rw [List.append_assoc]
        exact List.Perm.append_left _ hmap
      have e3 := e1.trans (rperm.append_right [plan.paths.getD s.fileIndex []])
      have e4 : plan.paths.take s.fileIndex ++ [plan.paths.getD s.fileIndex []] =
          plan.paths.take (s.fileIndex + 1) := by
        rw [List.take_succ, List.getElem?_eq_getElem hlt,
          List.getD_eq_getElem _ _ hlt, Option.toList_some]
      rw [e4] at e3
      exact e3
    · show (s.currentlyProcessing ++ [plan.paths.getD s.fileIndex []]).Perm
        ((inflightIdx (claimResult plan s w)).map (fun i => plan.paths.getD i []))
      exact (pperm.append_right _).trans hmap.symm
    · intro r hr
      exact rspec r hr
  | finish w i hw =>
    have himem : i ∈ inflightIdx s :=
      List.mem_filterMap.mpr ⟨WStatus.compressing i, List.getElem?_mem hw, rfl⟩
    have hiN : i < plan.paths.length :=
      Nat.lt_of_lt_of_le (ha.inflight_lt i himem) ha.cursor_le
    have hperm : (inflightIdx (finishResult plan beh s w i) ++ [i]).Perm (inflightIdx s) :=
      inflight_set_finish hw
    have hnodup2 : (inflightIdx (finishResult plan beh s w i) ++ [i]).Nodup :=
      hperm.symm.nodup ha.inflight_nodup
    have hinot : i ∉ inflightIdx (finishResult plan beh s w i) := by
      intro hmem
      exact (List.nodup_append.mp hnodup2).2.2 hmem (List.mem_singleton.mpr rfl)
    have hmap : ((inflightIdx s).map (fun j => plan.paths.getD j [])).Perm
        ((inflightIdx (finishResult plan beh s w i)).map (fun j => plan.paths.getD j []) ++
          [plan.paths.getD i []]) := by
      simpa using (hperm.symm.map (fun j => plan.paths.getD j []))
    have hrpath : (resultFor beh (plan.paths.getD i [])).path = plan.paths.getD i [] :=
      resultFor_path hc _
    refine ⟨?_, ?_, ?_⟩
    · have e0 : ((s.compressionResults ++ [resultFor beh (plan.paths.getD i [])]).map
          (fun r => r.path) ++
          (inflightIdx (finishResult plan beh s w i)).map (fun j => plan.paths.getD j []))
          = s.compressionResults.map (fun r => r.path) ++
            ([plan.paths.getD i []] ++
              (inflightIdx (finishResult plan beh s w i)).map
                (fun j => plan.paths.getD j [])) := by
        rw [List.map_append]
        simp only [List.map_cons, List.map_nil]
        rw [hrpath, List.append_assoc]
      have e1 : ([plan.paths.getD i []] ++
          (inflightIdx (finishResult plan beh s w i)).map
            (fun j => plan.paths.getD j [])).Perm
          ((inflightIdx s).map (fun j => plan.paths.getD j [])) :=
        (List.perm_append_singleton _ _).symm.trans hmap.symm
      have e2 := (List.Perm.append_left (s.compressionResults.map (fun r => r.path))
        e1).trans rperm
      show ((s.compressionResults ++ [resultFor beh (plan.paths.getD i [])]).map
          (fun r => r.path) ++
          (inflightIdx (finishResult plan beh s w i)).map
            (fun j => plan.paths.getD j [])).Perm
          (plan.paths.take s.fileIndex)
      rw [e0]
      exact e2
    · simp only [finishResult]
      have h0 : s.currentlyProcessing.Perm
          ((inflightIdx (finishResult plan beh s w i)).map (fun j => plan.paths.getD j []) ++
            [plan.paths.getD i []]) := pperm.trans hmap
      have h1 := h0.filter (fun q => q != plan.paths.getD i [])
      rw [List.filter_append] at h1
      have h2 : List.filter (fun q => q != plan.paths.getD i []) [plan.paths.getD i []] = [] := by
        simp
      have h3 : List.filter (fun q => q != plan.paths.getD i [])
          ((inflightIdx (finishResult plan beh s w i)).map (fun j => plan.paths.getD j [])) =
          (inflightIdx (finishResult plan beh s w i)).map (fun j => plan.paths.getD j []) := by
        rw [List.filter_eq_self]
        intro x hx
        obtain ⟨j, hj, hjx⟩ := List.mem_map.mp hx
        have hjmem : j ∈ inflightIdx s :=
          hperm.mem_iff.mp (List.mem_append_left _ hj)
        have hjN : j < plan.paths.length :=
          Nat.lt_of_lt_of_le (ha.inflight_lt j hjmem) ha.cursor_le
        rw [bne_iff_ne]
        intro hxeq
        have hji : plan.paths[j] = plan.paths[i] := by
          rw [← List.getD_eq_getElem _ [] hjN, ← List.getD_eq_getElem _ [] hiN, hjx, hxeq]
        have : j = i := (hnd.getElem_inj_iff).mp hji
        subst this
        exact hinot hj
      rw [h2, h3, List.append_nil] at h1
      exact h1
    · intro r hr
      rcases List.mem_append.mp hr with h1 | h1
      · exact rspec r h1
      · rw [List.mem_singleton] at h1
        subst h1
        exact ⟨plan.paths.getD i [], by rw [List.getD_eq_getElem _ [] hiN]; exact List.getElem_mem hiN, rfl⟩
  | wake w hw =>
    have hperm : (inflightIdx (wakeResult s w)).Perm (inflightIdx s) :=
      inflight_set_none hw rfl rfl
    refine ⟨?_, ?_, ?_⟩
    · exact (List.Perm.append_left _ (hperm.map _)).trans rperm
    · exact pperm.trans (hperm.symm.map _)
    · exact rspec
  | exit w hw hge =>
    have hperm : (inflightIdx (exitResult s w)).Perm (inflightIdx s) :=
      inflight_set_none hw rfl rfl
    refine ⟨?_, ?_, ?_⟩
    · exact (List.Perm.append_left _ (hperm.map _)).trans rperm
    · exact pperm.trans (hperm.symm.map _)
    · exact rspec

lemma inv_reachable {plan : BatchPlan} {beh : CompressBehaviour} {s : PoolState}
    (hnd : plan.paths.Nodup) (hc : EngineContract beh)
    (h : Reachable plan beh s) : InvA plan s ∧ InvB plan beh s := by
  induction h with
  | refl => exact ⟨invA_init plan, invB_init plan beh⟩
  | tail hr hstep ih => exact ⟨invA_step hstep ih.1, invB_step hnd hc hstep ih.1 ih.2⟩

/-- When every worker has returned, no compress call is in flight. -/
lemma inflight_nil_of_done {s : PoolState}
    (hdone : ∀ st ∈ s.workers, st = WStatus.done) : inflightIdx s = [] := by
  rw [inflightIdx, List.filterMap_eq_nil_iff]
  intro st hst
  rw [hdone st hst]
  rfl

/-- When every worker of a nonempty pool has returned, the cursor has
reached the end of the plan. -/
lemma fileIndex_eq_of_done {plan : BatchPlan} {s : PoolState} (ha : InvA plan s)
    (hP : 1 ≤ plan.poolSize) (hdone : ∀ st ∈ s.workers, st = WStatus.done) :
    s.fileIndex = plan.paths.length := by
  have hne : s.workers ≠ [] := by
    intro h0
    have hw := ha.wlen
    rw [h0] at hw
    simp at hw
    omega
  obtain ⟨st, hmem⟩ := List.exists_mem_of_ne_nil s.workers hne
  have h1 := ha.done_imp ⟨st, hmem, hdone st hmem⟩
  have h2 := ha.cursor_le
  omega

/-! ## Concrete runs -/

lemma behOk_contract : EngineContract behOk := by
  intro p r h
  simp only [behOk] at h
  injection h with h1
  rw [← h1]

lemma behEmptyError_contract : EngineContract behEmptyError := by
  intro p r h
  simp only [behEmptyError] at h
  exact absurd h (by simp)

lemma finishOk_eq_sSleepOk :
    finishResult planSingle behOk (claimResult planSingle (initState planSingle) 0) 0 0
      = sSleepOk := by
  decide

lemma finishErr_eq_sSleepErr :
    finishResult planSingle behEmptyError (claimResult planSingle (initState planSingle) 0) 0 0
      = sSleepErr := by
  decide

lemma reach_sSleepOk : Reachable planSingle behOk sSleepOk := by
  have h1 : WorkerStep planSingle behOk (initState planSingle)
      (claimResult planSingle (initState planSingle) 0) :=
    WorkerStep.claim _ 0 (by decide) (by decide)
  have h2 : WorkerStep planSingle behOk (claimResult planSingle (initState planSingle) 0)
      (finishResult planSingle behOk (claimResult planSingle (initState planSingle) 0) 0 0) :=
    WorkerStep.finish _ 0 0 (by decide)
  have hr : Reachable planSingle behOk
      (finishResult planSingle behOk (claimResult planSingle (initState planSingle) 0) 0 0) :=
    Relation.ReflTransGen.tail (Relation.ReflTransGen.tail Relation.ReflTransGen.refl h1) h2
  rwa [finishOk_eq_sSleepOk] at hr

lemma reach_sDoneOk : Reachable planSingle behOk sDoneOk := by
  have h3 : WorkerStep planSingle behOk sSleepOk (wakeResult sSleepOk 0) :=
    WorkerStep.wake _ 0 (by decide)
  have h4 : WorkerStep planSingle behOk (wakeResult sSleepOk 0)
      (exitResult (wakeResult sSleepOk 0) 0) :=
    WorkerStep.exit _ 0 (by decide) (by decide)
  have hr : Reachable planSingle behOk (exitResult (wakeResult sSleepOk 0) 0) :=
    Relation.ReflTransGen.tail (Relation.ReflTransGen.tail reach_sSleepOk h3) h4
  have he : exitResult (wakeResult sSleepOk 0) 0 = sDoneOk := by decide
  rwa [he] at hr

lemma reach_sDoneErr : Reachable planSingle behEmptyError sDoneErr := by
  have h1 : WorkerStep planSingle behEmptyError (initState planSingle)
      (claimResult planSingle (initState planSingle) 0) :=
    WorkerStep.claim _ 0 (by decide) (by decide)
  have h2 : WorkerStep planSingle behEmptyError
      (claimResult planSingle (initState planSingle) 0)
      (finishResult planSingle behEmptyError
        (claimResult planSingle (initState planSingle) 0) 0 0) :=
    WorkerStep.finish _ 0 0 (by decide)
  have hr2 : Reachable planSingle behEmptyError sSleepErr := by
    have hr : Reachable planSingle behEmptyError
        (finishResult planSingle behEmptyError
          (claimResult planSingle (initState planSingle) 0) 0 0) :=
      Relation.ReflTransGen.tail (Relation.ReflTransGen.tail Relation.ReflTransGen.refl h1) h2
    rwa [finishErr_eq_sSleepErr] at hr
  have h3 : WorkerStep planSingle behEmptyError sSleepErr (wakeResult sSleepErr 0) :=
    WorkerStep.wake _ 0 (by decide)
  have h4 : WorkerStep planSingle behEmptyError (wakeResult sSleepErr 0)
      (exitResult (wakeResult sSleepErr 0) 0) :=
    WorkerStep.exit _ 0 (by decide) (by decide)
  have hr3 : Reachable planSingle behEmptyError (exitResult (wakeResult sSleepErr 0) 0) :=
    Relation.ReflTransGen.tail (Relation.ReflTransGen.tail hr2 h3) h4
  have he : exitResult (wakeResult sSleepErr 0) 0 = sDoneErr := by decide
  rwa [he] at hr3

/-! ## C1: completeness of a run -/

/-- C1: for every plan with distinct paths and pool size in [1,20], every
compress behaviour satisfying the engine contract of §6 (a resolved call
returns the result for its path), and every interleaving, a completed run
holds exactly one result per planned path: `results` has length N and the
recorded result paths are a permutation of the plan's paths — the same
set, nothing omitted, nothing recorded twice. -/
theorem run_completeness (plan : BatchPlan) (beh : CompressBehaviour)
    (hnd : plan.paths.Nodup) (hc : EngineContract beh)
    (hP1 : 1 ≤ plan.poolSize) (hP20 : plan.poolSize ≤ 20)
    (s : PoolState) (hs : Reachable plan beh s)
    (hdone : ∀ st ∈ s.workers, st = WStatus.done) :
    s.compressionResults.length = plan.paths.length ∧
    (s.compressionResults.map (fun r => r.path)).Perm plan.paths := by
  obtain ⟨ha, hb⟩ := inv_reachable hnd hc hs
  have hnil := inflight_nil_of_done hdone
  have hfi := fileIndex_eq_of_done ha hP1 hdone
  have hperm := hb.results_perm
  rw [hnil] at hperm
  simp only [List.map_nil, List.append_nil] at hperm
  rw [hfi, List.take_length] at hperm
  refine ⟨?_, hperm⟩
  have hlen := hperm.length_eq
  simpa using hlen

/-- C1 (witness): the completed one-path happy-path run. -/
theorem run_completeness_witness :
    sDoneOk.compressionResults.length = planSingle.paths.length ∧
    (sDoneOk.compressionResults.map (fun r => r.path)).Perm planSingle.paths :=
  run_completeness planSingle behOk (by decide) behOk_contract (by decide) (by decide)
    sDoneOk reach_sDoneOk (by decide)

/-! ## C2: each index is claimed exactly once -/

/-- C2: in every reachable state of a run, the ghost claim log is exactly
the indices `0, 1, ..., fileIndex - 1` in order, so every index below the
cursor was claimed exactly once (by a single worker) with no duplicates;
the cursor is bounded by the plan length and never decreases at a step;
and when a nonempty pool has completed, the log covers every index below
N. -/
theorem claim_exactly_once (plan : BatchPlan) (beh : CompressBehaviour)
    (s : PoolState) (hs : Reachable plan beh s) :
    s.claims.map (fun c => c.2) = List.range s.fileIndex ∧
    (s.claims.map (fun c => c.2)).Nodup ∧
    s.fileIndex ≤ plan.paths.length ∧
    (∀ s' : PoolState, WorkerStep plan beh s s' → s.fileIndex ≤ s'.fileIndex) ∧
    (1 ≤ plan.poolSize → (∀ st ∈ s.workers, st = WStatus.done) →
      s.claims.map (fun c => c.2) = List.range plan.paths.length) := by
  have ha := invA_reachable hs
  refine ⟨ha.claims_eq, ?_, ha.cursor_le, ?_, ?_⟩
  · rw [ha.claims_eq]
    exact List.nodup_range _
  · intro s' hstep
    cases hstep with
    | claim w hw hlt =>
      simp only [claimResult]
      omega
    | finish w i hw => exact Nat.le_refl _
    | wake w hw => exact Nat.le_refl _
    | exit w hw hge => exact Nat.le_refl _
  · intro hP hdone
    rw [ha.claims_eq, fileIndex_eq_of_done ha hP hdone]

/-- C2 (witness): the claim log of the completed one-path run. -/
theorem claim_exactly_once_witness :
    sDoneOk.claims.map (fun c => c.2) = List.range sDoneOk.fileIndex ∧
    (sDoneOk.claims.map (fun c => c.2)).Nodup ∧
    sDoneOk.fileIndex ≤ planSingle.paths.length ∧
    (∀ s' : PoolState, WorkerStep planSingle behOk sDoneOk s' →
      sDoneOk.fileIndex ≤ s'.fileIndex) ∧
    (1 ≤ planSingle.poolSize → (∀ st ∈ sDoneOk.workers, st = WStatus.done) →
      sDoneOk.claims.map (fun c => c.2) = List.range planSingle.paths.length) :=
  claim_exactly_once planSingle behOk sDoneOk reach_sDoneOk

/-! ## C3: the concurrency bound -/

/-- C3: at every reachable instant of a run over distinct paths, the
in-flight list `currentlyProcessing` has at most min(poolSize, N)
entries. -/
theorem inflight_bound (plan : BatchPlan) (beh : CompressBehaviour)
    (hnd : plan.paths.Nodup) (hc : EngineContract beh)
    (s : PoolState) (hs : Reachable plan beh s) :
    s.currentlyProcessing.length ≤ min plan.poolSize plan.paths.length := by
  obtain ⟨ha, hb⟩ := inv_reachable hnd hc hs
  have hlen : s.currentlyProcessing.length = (inflightIdx s).length := by
    have h0 := hb.processing_perm.length_eq
    simpa using h0
  have h1 : (inflightIdx s).length ≤ plan.poolSize := by
    have h2 := List.length_filterMap_le statusIdx s.workers
    have h3 := ha.wlen
    rw [inflightIdx]
    omega
  have h4 : (inflightIdx s).length ≤ plan.paths.length := by
    have h5 : inflightIdx s ⊆ List.range plan.paths.length := by
      intro i hi
      rw [List.mem_range]
      exact Nat.lt_of_lt_of_le (ha.inflight_lt i hi) ha.cursor_le
    have h6 := (ha.inflight_nodup.subperm h5).length_le
    simpa using h6
  omega

/-- C3 (witness): the bound at the mid-run state with the worker in the
delay. -/
theorem inflight_bound_witness :
    sSleepOk.currentlyProcessing.length ≤ min planSingle.poolSize planSingle.paths.length :=
  inflight_bound planSingle behOk (by decide) behOk_contract sSleepOk reach_sSleepOk

/-! ## C4: failure isolation -/

/-- C4 (counterexample): a full run whose only compress call rejects with
an `Error` carrying an empty message completes with one failure result,
but that result's error string is EMPTY — the code records `err.message`
verbatim, so the claimed non-emptiness fails. -/
theorem failure_empty_error_cex :
    Reachable planSingle behEmptyError sDoneErr ∧
    sDoneErr.workers = [WStatus.done] ∧
    sDoneErr.compressionResults.length = planSingle.paths.length ∧
    emptyErrResultA ∈ sDoneErr.compressionResults ∧
    emptyErrResultA.success = false ∧
    emptyErrResultA.error = some [] :=
  ⟨reach_sDoneErr, rfl, rfl, by decide, rfl, rfl⟩

/-- C4 (amended): if compressOne rejects for any subset of the planned
paths — even all of them — a completed run still has one result per path
(`len(results) = N`); every rejected path is recorded with `success :=
false` and an error string equal to the thrown Error's message ( or
"Unknown error" for a non-Error value), which is nonempty exactly when
that message is; and no failure stops other workers or skips an index. -/
theorem failure_isolation (plan : BatchPlan) (beh : CompressBehaviour)
    (hnd : plan.paths.Nodup) (hc : EngineContract beh) (hP1 : 1 ≤ plan.poolSize)
    (s : PoolState) (hs : Reachable plan beh s)
    (hdone : ∀ st ∈ s.workers, st = WStatus.done) :
    s.compressionResults.length = plan.paths.length ∧
    (∀ p ∈ plan.paths, ∀ e : JSValue, beh p = CallOutcome.thrown e →
      ∃ r ∈ s.compressionResults,
        r.path = p ∧ r.success = false ∧ r.error = some (caughtMessage e)) := by
  obtain ⟨ha, hb⟩ := inv_reachable hnd hc hs
  have hnil := inflight_nil_of_done hdone
  have hfi := fileIndex_eq_of_done ha hP1 hdone
  have hperm := hb.results_perm
  rw [hnil] at hperm
  simp only [List.map_nil, List.append_nil] at hperm
  rw [hfi, List.take_length] at hperm
  constructor
  · have hlen := hperm.length_eq
    simpa using hlen
  · intro p hp e hthrown
    have hmem : p ∈ s.compressionResults.map (fun r => r.path) :=
      hperm.mem_iff.mpr hp
    obtain ⟨r, hr, hrp⟩ := List.mem_map.mp hmem
    obtain ⟨q, hq, hreq⟩ := hb.results_spec r hr
    have hqp : q = p := by
      rw [hreq, resultFor_path hc q] at hrp
      exact hrp
    rw [hqp] at hreq
    refine ⟨r, hr, ?_, ?_, ?_⟩
    · rw [hreq, resultFor_path hc]
    · rw [hreq]
      unfold resultFor
      rw [hthrown]
      rfl
    · rw [hreq]
      unfold resultFor
      rw [hthrown]
      rfl

/-- C4 (witness): the all-fail one-path run records the failure with the
thrown message. -/
theorem failure_isolation_witness :
    sDoneErr.compressionResults.length = planSingle.paths.length ∧
    ∃ r ∈ sDoneErr.compressionResults,
      r.path = "a".toList ∧ r.success = false ∧
      r.error = some (caughtMessage (JSValue.errorObj [])) := by
  obtain ⟨h1, h2⟩ := failure_isolation planSingle behEmptyError (by decide)
    behEmptyError_contract (by decide) sDoneErr reach_sDoneErr (by decide)
  exact ⟨h1, h2 ("a".toList) (by decide) (JSValue.errorObj []) rfl⟩

/-! ## C5: the number of spawned workers -/

/-- C5 (counterexample): with 3 planned paths and pool size 5 the spawn
loop of handleCompress starts 5 worker tasks, not min(5, 3) = 3 as the
claim states. -/
theorem spawn_min_cex :
    (initState planFiveThree).workers.length = 5 ∧
    planFiveThree.poolSize = 5 ∧
    planFiveThree.paths.length = 3 ∧
    (initState planFiveThree).workers.length ≠
      min planFiveThree.poolSize planFiveThree.paths.length := by
  refine ⟨rfl, rfl, rfl, ?_⟩
  decide

/-- C5 (amended): a run always spawns exactly `plan.poolSize` worker
tasks, even when the plan has fewer paths; a surplus worker that reaches
the loop head with the cursor exhausted can terminate at once, changing
nothing but its own status, and an index is only ever claimed while the
cursor is below the plan length. -/
theorem spawn_pool_size (plan : BatchPlan) (beh : CompressBehaviour) :
    (initState plan).workers.length = plan.poolSize ∧
    (∀ s : PoolState, ∀ w : Nat, s.workers[w]? = some WStatus.ready →
      plan.paths.length ≤ s.fileIndex → WorkerStep plan beh s (exitResult s w)) ∧
    (∀ s s' : PoolState, WorkerStep plan beh s s' →
      s.claims.length < s'.claims.length → s.fileIndex < plan.paths.length) ∧
    (∀ s : PoolState, ∀ w : Nat,
      (exitResult s w).fileIndex = s.fileIndex ∧
      (exitResult s w).currentlyProcessing = s.currentlyProcessing ∧
      (exitResult s w).compressionResults = s.compressionResults ∧
      (exitResult s w).processedCount = s.processedCount ∧
      (exitResult s w).claims = s.claims) := by
  refine ⟨by simp [initState], ?_, ?_, ?_⟩
  · intro s w hw hge
    exact WorkerStep.exit s w hw hge
  · intro s s' hstep hlt
    cases hstep with
    | claim w hw hltN => exact hltN
    | finish w i hw => exact absurd hlt (by simp [finishResult])
    | wake w hw => exact absurd hlt (by simp [wakeResult])
    | exit w hw hge => exact absurd hlt (by simp [exitResult])
  · intro s w
    exact ⟨rfl, rfl, rfl, rfl, rfl⟩

/-- C5 (witness): the single-worker pool spawns one task and only claims
while an index remains. -/
theorem spawn_pool_size_witness :
    (initState planSingle).workers.length = planSingle.poolSize ∧
    (initState planSingle).fileIndex < planSingle.paths.length := by
  obtain ⟨h1, h2, h3, h4⟩ := spawn_pool_size planSingle behOk
  refine ⟨h1, h3 (initState planSingle) (claimResult planSingle (initState planSingle) 0)
    (WorkerStep.claim _ 0 (by decide) (by decide)) (by decide)⟩

/-! ## C6: suspension points of the worker loop -/

/-- C6 (counterexample): the worker loop has a second suspension point
besides the compressOne call — after an item's bookkeeping the worker
suspends again in the artificial 10 ms `setTimeout` delay.  `sSleepOk` is
a reachable state whose only worker is suspended there. -/
theorem second_suspension_cex :
    Reachable planSingle behOk sSleepOk ∧
    sSleepOk.workers = [WStatus.sleeping] ∧
    WStatus.sleeping.isSuspended = true ∧
    WStatus.sleeping.isCompressCall = false :=
  ⟨reach_sSleepOk, rfl, rfl, rfl⟩

/-- C6 (amended): the worker loop suspends in exactly two places — the
compressOne call and the fixed delay after an item's bookkeeping — and the
single step that takes a worker from the compress call to the delay
performs that item's entire bookkeeping (result append, in-flight removal,
counter increment) atomically, so no suspension point lies between
claiming an index and completing its bookkeeping. -/
theorem suspension_points (plan : BatchPlan) (beh : CompressBehaviour) :
    (∀ st : WStatus, st.isSuspended = true →
      st.isCompressCall = true ∨ st = WStatus.sleeping) ∧
    (∀ s s' : PoolState, ∀ w i : Nat, WorkerStep plan beh s s' →
      s.workers[w]? = some (WStatus.compressing i) →
      s'.workers[w]? = some WStatus.sleeping →
      s' = finishResult plan beh s w i) := by
  constructor
  · intro st hsusp
    cases st <;> simp_all [WStatus.isSuspended, WStatus.isCompressCall]
  · intro s s' w i hstep hcomp hsleep
    cases hstep with
    | claim w2 hw hlt =>
      by_cases hww : w2 = w
      · subst hww
        rw [hw] at hcomp
        exact absurd hcomp (by simp)
      · have hsame : (claimResult plan s w2).workers[w]? = s.workers[w]? := by
          simp only [claimResult]
          exact List.getElem?_set_ne hww
        rw [hsame, hcomp] at hsleep
        exact absurd hsleep (by simp)
    | finish w2 i2 hw =>
      by_cases hww : w2 = w
      · subst hww
        rw [hw] at hcomp
        have hi : i2 = i := by
          injection hcomp with h0
          injection h0
        rw [hi]
      · have hsame : (finishResult plan beh s w2 i2).workers[w]? = s.workers[w]? := by
          simp only [finishResult]
          exact List.getElem?_set_ne hww
        rw [hsame, hcomp] at hsleep
        exact absurd hsleep (by simp)
    | wake w2 hw =>
      by_cases hww : w2 = w
      · subst hww
        rw [hw] at hcomp
        exact absurd hcomp (by simp)
      · have hsame : (wakeResult s w2).workers[w]? = s.workers[w]? := by
          simp only [wakeResult]
          exact List.getElem?_set_ne hww
        rw [hsame, hcomp] at hsleep
        exact absurd hsleep (by simp)
    | exit w2 hw hge =>
      by_cases hww : w2 = w
      · subst hww
        rw [hw] at hcomp
        exact absurd hcomp (by simp)
      · have hsame : (exitResult s w2).workers[w]? = s.workers[w]? := by
          simp only [exitResult]
          exact List.getElem?_set_ne hww
        rw [hsame, hcomp] at hsleep
        exact absurd hsleep (by simp)

/-- C6 (witness): the concrete compress-to-delay step of the one-path run
is exactly the atomic bookkeeping step. -/
theorem suspension_points_witness :
    sSleepOk = finishResult planSingle behOk (claimResult planSingle (initState planSingle) 0) 0 0 := by
  have hstep : WorkerStep planSingle behOk (claimResult planSingle (initState planSingle) 0)
      sSleepOk := by
    have h0 : WorkerStep planSingle behOk (claimResult planSingle (initState planSingle) 0)
        (finishResult planSingle behOk (claimResult planSingle (initState planSingle) 0) 0 0) :=
      WorkerStep.finish _ 0 0 (by decide)
    rwa [finishOk_eq_sSleepOk] at h0
  exact (suspension_points planSingle behOk).2
    (claimResult planSingle (initState planSingle) 0) sSleepOk 0 0 hstep (by decide) (by decide)

end SpaceSaver
